import Mathlib

set_option linter.unusedVariables false

/-!
Verification of the InterviewPrep session app (`src/app.py`).

The program is shallowly embedded: strings are Lean `String`s (with the
character-level work done on their `List Char` data), the fallible external
language-model call is an explicit oracle `String → Option String` (`none`
models any exception of the call), and the mutable Streamlit session state
is an explicit `SessionState` record transformed by pure step functions.
Python character classes (`\s`, `\d`, `str.strip`, `str.lower`) are modelled
on their ASCII behaviour.
-/

namespace InterviewPrep

/-- Python whitespace (ASCII part of `\s` and of `str.strip`):
space, tab, newline, carriage return, vertical tab, form feed. -/
def isSpace (c : Char) : Bool :=
  decide (c.toNat = 32 ∨ c.toNat = 9 ∨ c.toNat = 10 ∨ c.toNat = 13 ∨ c.toNat = 11 ∨ c.toNat = 12)

/-- Python `\d`, ASCII digits. -/
def isDigit (c : Char) : Bool :=
  decide (48 ≤ c.toNat ∧ c.toNat ≤ 57)

/-- Code point of the lower-cased character (ASCII lowering), used for the
`re.IGNORECASE` comparisons. -/
def lowerChar (c : Char) : Nat :=
  if 65 ≤ c.toNat ∧ c.toNat ≤ 90 then c.toNat + 32 else c.toNat

/-- First element produced by a function over a list, in order: the
backtracking search of the regex engine tries candidates left to right. -/
def firstSome? {α β : Type} (f : α → Option β) : List α → Option β
  | [] => none
  | a :: l =>
    match f a with
    | some b => some b
    | none => firstSome? f l

/-- Case-insensitive literal matcher: consumes `lit` from the front of the
input, returning the remainder. -/
def matchLit : List Char → List Char → Option (List Char)
  | [], s => some s
  | _ :: _, [] => none
  | l :: ls, c :: cs => if lowerChar c = lowerChar l then matchLit ls cs else none

/-- All ways a greedy `cls*` can split the input, longest consumed prefix
first (the order a backtracking regex engine tries them). Each element is
(consumed, remainder). -/
def starSplits (cls : Char → Bool) : List Char → List (List Char × List Char)
  | [] => [([], [])]
  | c :: cs =>
    if cls c then
      (starSplits cls cs).map (fun q => (c :: q.1, q.2)) ++ [([], c :: cs)]
    else [([], c :: cs)]

/-- All ways a greedy `cls+` can split the input, longest first. -/
def plusSplits (cls : Char → Bool) : List Char → List (List Char × List Char)
  | [] => []
  | c :: cs =>
    if cls c then (starSplits cls cs).map (fun q => (c :: q.1, q.2)) else []

/-- Splits of the optional fractional part `(?:\.\d+)?`, tried with the
fraction present first (greedy), given the remainder after the integer
digits. -/
def fracSplits (d : List Char) : List Char → List (List Char × List Char)
  | [] => []
  | c :: r2 =>
    if c = '.' then (plusSplits isDigit r2).map fun pf => (d ++ '.' :: pf.1, pf.2)
    else []

/-- Splits of the capture group `(\d+(?:\.\d+)?)` of `extract_score`'s
regex, in backtracking order. -/
def numSplits (s : List Char) : List (List Char × List Char) :=
  (plusSplits isDigit s).flatMap fun pd =>
    fracSplits pd.1 pd.2 ++ [(pd.1, pd.2)]

/-- The literal `Score:` of the regex. -/
def scorePat : List Char := ['S', 'c', 'o', 'r', 'e', ':']

/-- The literal `out` of the regex. -/
def outPat : List Char := ['o', 'u', 't']

/-- The literal `of` of the regex. -/
def ofPat : List Char := ['o', 'f']

/-- The `\/` branch of the alternation: succeeds only on a leading slash. -/
def slashBranch : List Char → List (List Char)
  | [] => []
  | c :: r => if c = '/' then [r] else []

/-- Remainders after the alternation `(?:\/|\s*out\s*of\s*)` of
`extract_score`'s regex, in backtracking order (`/` branch first). -/
def sepSplits (s : List Char) : List (List Char) :=
  slashBranch s ++
  ((starSplits isSpace s).flatMap fun pa =>
    match matchLit outPat pa.2 with
    | none => []
    | some r2 =>
      (starSplits isSpace r2).flatMap fun pb =>
        match matchLit ofPat pb.2 with
        | none => []
        | some r4 => (starSplits isSpace r4).map fun pc => pc.2)

/-- Final literal `10` of the regex: succeeds when the remainder starts with
`10`, returning the captured number. -/
def matchTen (num rest : List Char) : Option (List Char) :=
  match rest with
  | c1 :: c2 :: _ => if c1 = '1' ∧ c2 = '0' then some num else none
  | _ => none

/-- The part of the pattern after the captured number:
`\s*(?:\/|\s*out\s*of\s*)\s*10`, returning the captured `num` on
success. -/
def afterNum (num rest2 : List Char) : Option (List Char) :=
  firstSome? (fun p3 =>
    firstSome? (fun r4 =>
      firstSome? (fun p5 => matchTen num p5.2) (starSplits isSpace r4))
      (sepSplits p3.2))
    (starSplits isSpace rest2)

/-- The part of the pattern after the literal `Score:`:
`\s*(\d+(?:\.\d+)?)` followed by `afterNum`. -/
def afterScore (r1 : List Char) : Option (List Char) :=
  firstSome? (fun p1 =>
    firstSome? (fun p2 => afterNum p2.1 p2.2) (numSplits p1.2))
    (starSplits isSpace r1)

/-- One anchored attempt of `re.search` with the pattern
`Score:\s*(\d+(?:\.\d+)?)\s*(?:\/|\s*out\s*of\s*)\s*10` (IGNORECASE) at the
start of `s`; returns the captured group 1. -/
def matchAt (s : List Char) : Option (List Char) :=
  match matchLit scorePat s with
  | none => none
  | some r1 => afterScore r1

/-- `re.search`: try the pattern at each position, leftmost match wins. -/
def search : List Char → Option (List Char)
  | [] => none
  | c :: cs =>
    match matchAt (c :: cs) with
    | some v => some v
    | none => search cs

/-- Numeric value of an ASCII digit. -/
def digitVal (c : Char) : Nat := c.toNat - 48

/-- Decimal value of a digit string. -/
def parseDigits (l : List Char) : Nat :=
  l.foldl (fun a c => 10 * a + digitVal c) 0

/-- Python `float` on the captured group `\d+(?:\.\d+)?`, as an exact
rational: the integer part plus the fractional digits over the matching
power of ten. -/
def parseNum (l : List Char) : ℚ :=
  let d := l.takeWhile isDigit
  let r := l.dropWhile isDigit
  match r with
  | '.' :: f => mkRat (parseDigits d * 10 ^ f.length + parseDigits f) (10 ^ f.length)
  | _ => (parseDigits d : ℚ)

/-- `extract_score` (src/app.py lines 74-81): regex-search the feedback for
a score, defaulting to `7.0` when the pattern is absent. -/
def extract_score (feedback : String) : ℚ :=
  match search feedback.data with
  | some num => parseNum num
  | none => 7

/-- Case-insensitive equality of a pattern and a text of the same length. -/
def ciEq : List Char → List Char → Bool
  | [], [] => true
  | l :: ls, c :: cs => decide (lowerChar c = lowerChar l) && ciEq ls cs
  | _, _ => false

/-- All characters of the list are whitespace. -/
def allWs (l : List Char) : Bool := l.all isSpace

/-- The shape of the capture group `\d+(?:\.\d+)?`: a non-empty digit
string, optionally followed by a dot and a non-empty digit string. -/
def NumShape (l : List Char) : Prop :=
  (l ≠ [] ∧ l.all isDigit = true) ∨
  ∃ d f, l = d ++ '.' :: f ∧ d ≠ [] ∧ f ≠ [] ∧ d.all isDigit = true ∧ f.all isDigit = true

/-- The shape of the core of the alternation `(?:\/|\s*out\s*of\s*)`: a
slash, or case variants of `out` and `of` separated by whitespace. -/
def SepShape (sep : List Char) : Prop :=
  sep = ['/'] ∨
  ∃ o1 wm o2, ciEq outPat o1 = true ∧ allWs wm = true ∧ ciEq ofPat o2 = true ∧
    sep = o1 ++ wm ++ o2

/-- A text that is one full occurrence of the score pattern: a case variant
of `Score:`, optional whitespace, the captured number `num`, optional
whitespace, a separator, optional whitespace, and `10`, followed by
anything. -/
def ScoreTail (s num : List Char) : Prop :=
  ∃ sco w1 w2 sep w3 suf, ciEq scorePat sco = true ∧ allWs w1 = true ∧ NumShape num ∧
    allWs w2 = true ∧ SepShape sep ∧ allWs w3 = true ∧
    s = sco ++ w1 ++ num ++ w2 ++ sep ++ w3 ++ '1' :: '0' :: suf

/-- The text contains an occurrence of the score pattern of
`extract_score`'s regex at some position. -/
def HasScorePattern (s : List Char) : Prop :=
  ∃ pre tail num, s = pre ++ tail ∧ ScoreTail tail num

/-- The apostrophe character, written by code point. -/
def sq : String := String.singleton (Char.ofNat 39)

/-- The fixed fallback feedback returned by `evaluate_answer` when the
model call raises (src/app.py line 71). -/
def fallbackFeedback : String :=
  "Score: 7/10\nGood answer! Consider adding a bit more detail about your specific experiences."

/-- The prompt built by `evaluate_answer` (src/app.py lines 59-65),
including the f-string's literal indentation. -/
def promptFor (user_answer question : String) : String :=
  "Briefly evaluate this interview answer. Keep it short and simple.\n        Question: "
    ++ question ++ "\n        Answer: " ++ user_answer
    ++ "\n        \n        Give a score out of 10 and 2-3 sentences of feedback. Format as:\n        Score: X/10\n        [Your brief feedback here]"

/-- The three question modes of the radio widget. -/
inductive Mode
  | technical
  | behavioral
  | systemDesign
deriving DecidableEq

/-- `evaluate_answer` (src/app.py lines 57-71). The external Gemini call is
the oracle `model`; `none` models the call raising any exception, in which
case the fixed fallback string is returned. The `mode` parameter is
accepted and unused, as in the source. -/
def evaluate_answer (model : String → Option String) (user_answer question : String)
    (mode : Mode) : String :=
  match model (promptFor user_answer question) with
  | some text => text
  | none => fallbackFeedback

/-- The per-mode template lists of `generate_question`
(src/app.py lines 22-44). Four of the Technical templates interpolate the
domain when it is non-empty (Python truthiness of `domain`). -/
def question_templates (domain : String) : Mode → List String
  | .technical =>
    [if domain ≠ "" then "What is your experience with " ++ domain ++ "?"
     else "What programming languages do you know best?",
     if domain ≠ "" then "Describe a simple " ++ domain ++ " project you" ++ sq ++ "ve worked on."
     else "What" ++ sq ++ "s your favorite tech tool and why?",
     if domain ≠ "" then "How would you explain " ++ domain ++ " to a beginner?"
     else "What" ++ sq ++ "s your debugging process?",
     if domain ≠ "" then "What interests you about " ++ domain ++ "?"
     else "How do you keep your technical skills updated?",
     "Tell me about your most recent technical project."]
  | .behavioral =>
    ["Tell me about yourself.",
     "What" ++ sq ++ "s your greatest professional strength?",
     "Why do you want this job?",
     "How do you handle stress?",
     "Describe your ideal work environment."]
  | .systemDesign =>
    ["How would you design a simple URL shortener?",
     "Explain how you would build a basic chat application.",
     "How would you design a simple file storage system?",
     "Describe a basic e-commerce checkout flow.",
     "How would you approach designing a simple API?"]

/-- Python substring test `needle in hay`. -/
def hasSub (needle : List Char) : List Char → Bool
  | [] => needle.isEmpty
  | c :: cs => needle.isPrefixOf (c :: cs) || hasSub needle cs

/-- The literal substring `domain` checked at src/app.py line 51. -/
def domainWord : List Char := ['d', 'o', 'm', 'a', 'i', 'n']

/-- The suffix appended at src/app.py line 52. -/
def relatedSuffix (domain : String) : String := " (Related to " ++ domain ++ ")"

/-- `generate_question` (src/app.py lines 20-54). The Streamlit
`st.session_state.asked` read at line 47 is the explicit `asked` argument;
`role` is accepted and unused, as in the source. -/
def generate_question (role domain : String) (mode : Mode) (asked : Nat) : String :=
  let templates := question_templates domain mode
  let question := templates.getD (asked % templates.length) ""
  if domain ≠ "" ∧ hasSub domainWord question.data = false then question ++ relatedSuffix domain
  else question

/-- The sidebar settings read by each interaction (src/app.py lines 97-100),
fixed for the duration of one run. -/
structure Settings where
  role : String
  domain : String
  mode : Mode
  num_questions : Nat

/-- One entry of `st.session_state.score` (src/app.py lines 133-138). -/
structure ResultEntry where
  question : String
  answer : String
  feedback : String
  score : ℚ
deriving DecidableEq

/-- The mutable Streamlit session state (src/app.py lines 87-92):
`question` is `current_question`, `asked` is `asked_count`, `score` is the
results list. -/
structure SessionState where
  question : Option String
  asked : Nat
  score : List ResultEntry
deriving DecidableEq

/-- The fresh session state of src/app.py lines 87-92 (also the state
after `st.session_state.clear()`). -/
def initState : SessionState := ⟨none, 0, []⟩

/-- Python `not user_answer.strip()`: the answer is empty or whitespace
only. -/
def stripIsEmpty (s : String) : Bool := s.data.all isSpace

/-- The Submit button handler (src/app.py lines 126-148). It only runs
while a question is displayed; a blank answer only shows a warning and
changes nothing. `generate_question` is called after the increment, so it
sees the new `asked`, as at line 144. -/
def submitAction (cfg : Settings) (model : String → Option String) (user_answer : String)
    (s : SessionState) : SessionState :=
  match s.question with
  | none => s
  | some q =>
    if stripIsEmpty user_answer then s
    else
      let feedback := evaluate_answer model user_answer q cfg.mode
      let entry : ResultEntry := ⟨q, user_answer, feedback, extract_score feedback⟩
      let asked := s.asked + 1
      if asked < cfg.num_questions then
        { question := some (generate_question cfg.role cfg.domain cfg.mode asked),
          asked := asked, score := s.score ++ [entry] }
      else
        { question := none, asked := asked, score := s.score ++ [entry] }

/-- The Skip button handler (src/app.py lines 151-158). -/
def skipAction (cfg : Settings) (s : SessionState) : SessionState :=
  match s.question with
  | none => s
  | some _ =>
    let asked := s.asked + 1
    if asked < cfg.num_questions then
      { question := some (generate_question cfg.role cfg.domain cfg.mode asked),
        asked := asked, score := s.score }
    else
      { question := none, asked := asked, score := s.score }

/-- The Start Practice button (src/app.py lines 111-115): initializes a run
only when no question is active. -/
def startAction (cfg : Settings) (s : SessionState) : SessionState :=
  match s.question with
  | some _ => s
  | none =>
    { question := some (generate_question cfg.role cfg.domain cfg.mode 0),
      asked := 0, score := [] }

/-- One submit-or-skip interaction of a run; a submit carries the oracle
response behaviour of the external model for that interaction and the
answer text. -/
inductive UserAction
  | submit (model : String → Option String) (answer : String)
  | skip

/-- Dispatch one interaction to its handler. -/
def stepAction (cfg : Settings) : UserAction → SessionState → SessionState
  | .submit model ans => submitAction cfg model ans
  | .skip => skipAction cfg

/-- Run a list of interactions in order. -/
def runActions (cfg : Settings) : List UserAction → SessionState → SessionState
  | [], s => s
  | a :: rest, s => runActions cfg rest (stepAction cfg a s)

/-- Whether the interaction is a submit. -/
def isSubmit : UserAction → Bool
  | .submit _ _ => true
  | .skip => false

/-- A submit with a non-blank answer, or a skip: the interactions that
the validation at src/app.py line 127 lets through. -/
def validAction : UserAction → Bool
  | .submit _ ans => !stripIsEmpty ans
  | .skip => true

/-- Number of submits among the interactions. -/
def countSubmits (acts : List UserAction) : Nat := (acts.filter isSubmit).length

/-- Session states reachable from a fresh session under a fixed choice of
sidebar settings: any interleaving of Start Practice, sidebar Reset
(src/app.py lines 102-104), Submit with any answer and any model-call
outcome, and Skip. -/
inductive Reachable (cfg : Settings) : SessionState → Prop
  | init : Reachable cfg initState
  | start {s} : Reachable cfg s → Reachable cfg (startAction cfg s)
  | reset {s} : Reachable cfg s → Reachable cfg initState
  | submit {s} (model : String → Option String) (ua : String) :
      Reachable cfg s → Reachable cfg (submitAction cfg model ua s)
  | skip {s} : Reachable cfg s → Reachable cfg (skipAction cfg s)

end InterviewPrep

namespace InterviewPrep

example : extract_score "Score: 3/10" = 3 := by decide
example : extract_score "score:  8.5 / 10 more text" = mkRat 17 2 := by decide
example : extract_score "SCORE: 9 out of 10" = 9 := by decide
example : extract_score "no score here" = 7 := by decide
example : extract_score "Score: 710" = 7 := by decide
example : extract_score "blah Score: 4/10" = 4 := by decide

/-- The number of templates is five in every mode. -/
theorem question_templates_length (domain : String) (mode : Mode) :
    (question_templates domain mode).length = 5 := by
  cases mode <;> rfl

/-- C7: question generation is deterministic in (role, domain, mode,
ask count) — it is a pure function — and depends on the ask count only
through `ask_count % 5`, so it cycles with period 5 and selects the
template at index `ask_count % 5`. -/
theorem generate_question_cycle (role domain : String) (mode : Mode) (asked : Nat) :
    generate_question role domain mode (asked + 5) = generate_question role domain mode asked ∧
    generate_question role domain mode asked = generate_question role domain mode (asked % 5) := by
  have h1 : (asked + 5) % 5 = asked % 5 := by omega
  have h2 : asked % 5 % 5 = asked % 5 := by omega
  unfold generate_question
  simp only [question_templates_length, h1, h2, and_self]

/-- C9: the generated question carries the suffix ` (Related to {domain})`
exactly when the domain is non-empty and the literal substring `domain`
does not occur in the selected template text. -/
theorem generate_question_suffix (role domain : String) (mode : Mode) (asked : Nat) :
    (domain ≠ "" ∧ hasSub domainWord ((question_templates domain mode).getD
          (asked % (question_templates domain mode).length) "").data = false →
        generate_question role domain mode asked
          = ((question_templates domain mode).getD
              (asked % (question_templates domain mode).length) "") ++ relatedSuffix domain) ∧
    (domain = "" ∨ hasSub domainWord ((question_templates domain mode).getD
          (asked % (question_templates domain mode).length) "").data = true →
        generate_question role domain mode asked
          = (question_templates domain mode).getD
              (asked % (question_templates domain mode).length) "") := by
  constructor
  · intro h
    unfold generate_question
    simp only [if_pos h]
  · intro h
    unfold generate_question
    have hc : ¬(domain ≠ "" ∧ hasSub domainWord ((question_templates domain mode).getD
        (asked % (question_templates domain mode).length) "").data = false) := by
      rintro ⟨h1, h2⟩
      rcases h with h | h
      · exact h1 h
      · rw [h] at h2
        exact Bool.noConfusion h2
    simp only [if_neg hc]

/-- Witness for C9 at a concrete input: domain `Python`, Technical mode,
first question. -/
theorem generate_question_suffix_w :
    generate_question "Data Analyst" "Python" Mode.technical 0
      = ((question_templates "Python" Mode.technical).getD
          (0 % (question_templates "Python" Mode.technical).length) "")
        ++ relatedSuffix "Python" :=
  (generate_question_suffix "Data Analyst" "Python" Mode.technical 0).1 (by decide)

/-- C5: whenever the external model call fails (the oracle returns `none`
on the built prompt), the evaluator returns the fixed fallback string,
which starts with `Score: 7/10`; in this embedding the evaluator is a
total function, so no error reaches the caller. -/
theorem evaluate_answer_failure (model : String → Option String) (user_answer question : String)
    (mode : Mode) (hf : model (promptFor user_answer question) = none) :
    evaluate_answer model user_answer question mode = fallbackFeedback ∧
    "Score: 7/10".data.isPrefixOf fallbackFeedback.data = true := by
  constructor
  · unfold evaluate_answer
    rw [hf]
  · decide

/-- Witness for C5: a model oracle that always fails. -/
theorem evaluate_answer_failure_w :
    evaluate_answer (fun _ => none) "my answer" "the question" Mode.technical = fallbackFeedback ∧
    "Score: 7/10".data.isPrefixOf fallbackFeedback.data = true :=
  evaluate_answer_failure (fun _ => none) "my answer" "the question" Mode.technical rfl

/-- C10: the score extracted from the evaluator's failure-fallback string
is exactly 7, so a Result created from a failed model call carries
score 7.0 — the same value as the extractor's no-match default. -/
theorem failed_eval_score_seven (model : String → Option String) (user_answer question : String)
    (mode : Mode) (hf : model (promptFor user_answer question) = none) :
    extract_score (evaluate_answer model user_answer question mode) = 7 ∧
    extract_score fallbackFeedback = 7 ∧
    (∀ s : String, search s.data = none → extract_score s = 7) := by
  have he : evaluate_answer model user_answer question mode = fallbackFeedback := by
    unfold evaluate_answer
    rw [hf]
  refine ⟨by rw [he]; decide, by decide, ?_⟩
  intro s hs
  unfold extract_score
  rw [hs]

/-- Witness for C10: a model oracle that always fails. -/
theorem failed_eval_score_seven_w :
    extract_score (evaluate_answer (fun _ => none) "my answer" "the question" Mode.technical) = 7 :=
  (failed_eval_score_seven (fun _ => none) "my answer" "the question" Mode.technical rfl).1

/-- C6: submitting an empty or whitespace-only answer while a question is
pending leaves the whole session state unchanged. -/
theorem submit_blank_noop (cfg : Settings) (model : String → Option String) (user_answer : String)
    (s : SessionState) (q : String) (hq : s.question = some q)
    (hws : stripIsEmpty user_answer = true) :
    submitAction cfg model user_answer s = s := by
  unfold submitAction
  rw [hq]
  simp [hws]

/-- Witness for C6: whitespace-only answer on a pending question. -/
theorem submit_blank_noop_w :
    submitAction ⟨"Designer", "", Mode.behavioral, 3⟩ (fun _ => none) "  \n "
      ⟨some "Tell me about yourself.", 0, []⟩ = ⟨some "Tell me about yourself.", 0, []⟩ :=
  submit_blank_noop ⟨"Designer", "", Mode.behavioral, 3⟩ (fun _ => none) "  \n "
    ⟨some "Tell me about yourself.", 0, []⟩ "Tell me about yourself." rfl (by decide)

/-- Explicit form of a valid submit: the record produced by the Submit
handler when a question is pending and the answer is non-blank. -/
theorem submitAction_eq_of_valid (cfg : Settings) (model : String → Option String)
    (user_answer : String) (s : SessionState) (q : String)
    (hq : s.question = some q) (hne : stripIsEmpty user_answer = false) :
    submitAction cfg model user_answer s =
      { question := if s.asked + 1 < cfg.num_questions
          then some (generate_question cfg.role cfg.domain cfg.mode (s.asked + 1)) else none,
        asked := s.asked + 1,
        score := s.score ++ [⟨q, user_answer, evaluate_answer model user_answer q cfg.mode,
          extract_score (evaluate_answer model user_answer q cfg.mode)⟩] } := by
  unfold submitAction
  rw [hq]
  by_cases hlt : s.asked + 1 < cfg.num_questions <;> simp [hne, hlt]

/-- Explicit form of a skip while a question is pending. -/
theorem skipAction_eq (cfg : Settings) (s : SessionState) (q : String)
    (hq : s.question = some q) :
    skipAction cfg s =
      { question := if s.asked + 1 < cfg.num_questions
          then some (generate_question cfg.role cfg.domain cfg.mode (s.asked + 1)) else none,
        asked := s.asked + 1,
        score := s.score } := by
  unfold skipAction
  rw [hq]
  by_cases hlt : s.asked + 1 < cfg.num_questions <;> simp [hlt]

/-- C1: a submit with a non-blank answer while a question is pending
evaluates the answer, appends exactly the one Result record built from the
pending question, the answer, the feedback and its extracted score,
increments `asked` by one, and then either generates the next question
(when `asked` is still below `num_questions`) or clears the current
question. -/
theorem submit_valid_transition (cfg : Settings) (model : String → Option String)
    (user_answer : String) (s : SessionState) (q : String)
    (hq : s.question = some q) (hne : stripIsEmpty user_answer = false) :
    (submitAction cfg model user_answer s).score
        = s.score ++ [⟨q, user_answer, evaluate_answer model user_answer q cfg.mode,
            extract_score (evaluate_answer model user_answer q cfg.mode)⟩] ∧
    (submitAction cfg model user_answer s).asked = s.asked + 1 ∧
    (s.asked + 1 < cfg.num_questions →
      (submitAction cfg model user_answer s).question
        = some (generate_question cfg.role cfg.domain cfg.mode (s.asked + 1))) ∧
    (¬ s.asked + 1 < cfg.num_questions →
      (submitAction cfg model user_answer s).question = none) := by
  unfold submitAction
  rw [hq]
  by_cases hlt : s.asked + 1 < cfg.num_questions <;> simp [hne, hlt]

/-- Witness for C1: one valid submit with a failing model oracle, in a run
of three questions. -/
theorem submit_valid_transition_w :
    stripIsEmpty "I like Lean." = false ∧
    (submitAction ⟨"Software Engineer", "", Mode.behavioral, 3⟩ (fun _ => none) "I like Lean."
        ⟨some "Tell me about yourself.", 0, []⟩).asked = 0 + 1 :=
  ⟨by decide,
   (submit_valid_transition ⟨"Software Engineer", "", Mode.behavioral, 3⟩ (fun _ => none)
      "I like Lean." ⟨some "Tell me about yourself.", 0, []⟩ "Tell me about yourself."
      rfl (by decide)).2.1⟩

/-- The submit count of a cons: one more when the head is a submit. -/
theorem countSubmits_cons (a : UserAction) (rest : List UserAction) :
    countSubmits (a :: rest) = countSubmits rest + (if isSubmit a then 1 else 0) := by
  cases a <;> simp [countSubmits, List.filter_cons, isSubmit]

/-- Effect of one valid submit-or-skip interaction on a session with a
pending question: the asked counter advances by one, the results grow by
one exactly for a submit, and the question stays pending exactly while the
new counter is still below the budget. -/
theorem step_pending (cfg : Settings) (a : UserAction) (s : SessionState) (q : String)
    (hq : s.question = some q) (hv : validAction a = true) :
    (stepAction cfg a s).asked = s.asked + 1 ∧
    (stepAction cfg a s).score.length = s.score.length + (if isSubmit a then 1 else 0) ∧
    ((stepAction cfg a s).question = none ↔ ¬ s.asked + 1 < cfg.num_questions) ∧
    ((stepAction cfg a s).question.isSome = true ↔ s.asked + 1 < cfg.num_questions) := by
  cases a with
  | submit model ans =>
    have hne : stripIsEmpty ans = false := by simpa [validAction] using hv
    simp only [stepAction]
    rw [submitAction_eq_of_valid cfg model ans s q hq hne]
    by_cases hlt : s.asked + 1 < cfg.num_questions <;> simp [hlt, isSubmit]
  | skip =>
    simp only [stepAction]
    rw [skipAction_eq cfg s q hq]
    by_cases hlt : s.asked + 1 < cfg.num_questions <;> simp [hlt, isSubmit]

/-- Effect of a list of valid submit-or-skip interactions on a session
whose question is pending and whose remaining budget covers them: the
asked counter advances by one per interaction, the results grow by one per
submit, and the question is cleared exactly when the interactions are
non-empty and exhaust the budget. -/
theorem runActions_spec (cfg : Settings) (acts : List UserAction) :
    ∀ s : SessionState, s.question.isSome = true →
      (∀ a ∈ acts, validAction a = true) →
      s.asked + acts.length ≤ cfg.num_questions →
      (runActions cfg acts s).asked = s.asked + acts.length ∧
      (runActions cfg acts s).score.length = s.score.length + countSubmits acts ∧
      ((runActions cfg acts s).question = none ↔
        (acts ≠ [] ∧ s.asked + acts.length = cfg.num_questions)) := by
  induction acts with
  | nil =>
    intro s hq hv hle
    refine ⟨rfl, by simp [runActions, countSubmits], ?_⟩
    simp only [runActions, List.length_nil, ne_eq, not_true_eq_false, false_and, iff_false]
    intro hn
    rw [hn] at hq
    exact Bool.noConfusion hq
  | cons a rest ih =>
    intro s hq hv hle
    obtain ⟨q, hq'⟩ := Option.isSome_iff_exists.mp hq
    have hvrest : ∀ b ∈ rest, validAction b = true := fun b hb => hv b (List.mem_cons_of_mem a hb)
    obtain ⟨ha1, hs1, hqn, hqs⟩ := step_pending cfg a s q hq' (hv a (List.mem_cons_self a rest))
    have hrun : runActions cfg (a :: rest) s = runActions cfg rest (stepAction cfg a s) := rfl
    have hlen : (a :: rest).length = rest.length + 1 := List.length_cons a rest
    by_cases hlt : s.asked + 1 < cfg.num_questions
    · obtain ⟨iha, ihs, ihq⟩ := ih (stepAction cfg a s) (hqs.mpr hlt) hvrest
        (by rw [ha1]; rw [hlen] at hle; omega)
      rw [hrun]
      refine ⟨by rw [iha, ha1, hlen]; omega, ?_, ?_⟩
      · rw [ihs, hs1, countSubmits_cons]
        omega
      · rw [ihq, ha1]
        constructor
        · rintro ⟨hr, he⟩
          exact ⟨List.cons_ne_nil _ _, by rw [hlen]; omega⟩
        · rintro ⟨-, he⟩
          rw [hlen] at he
          have hr : rest ≠ [] := by
            intro hnil
            subst hnil
            simp at he
            omega
          exact ⟨hr, by omega⟩
    · have hrlen : rest.length = 0 := by rw [hlen] at hle; omega
      have hnil := List.length_eq_zero.mp hrlen
      subst hnil
      have hrun1 : runActions cfg [a] s = stepAction cfg a s := rfl
      rw [hrun1]
      refine ⟨by rw [ha1]; simp, ?_, ?_⟩
      · rw [hs1, countSubmits_cons]
        simp [countSubmits]
      · rw [hqn]
        constructor
        · intro
          exact ⟨List.cons_ne_nil _ _, by simp at hle ⊢; omega⟩
        · intro
          exact hlt

/-- C2: starting a fresh run and performing exactly `num_questions` valid
submit-or-skip interactions ends with the current question cleared, the
asked counter equal to `num_questions`, and one result per submit (skips
create none). -/
theorem run_completes (cfg : Settings) (acts : List UserAction)
    (h1 : 1 ≤ cfg.num_questions) (hlen : acts.length = cfg.num_questions)
    (hv : ∀ a ∈ acts, validAction a = true) :
    (runActions cfg acts (startAction cfg initState)).question = none ∧
    (runActions cfg acts (startAction cfg initState)).asked = cfg.num_questions ∧
    (runActions cfg acts (startAction cfg initState)).score.length = countSubmits acts := by
  have hs : startAction cfg initState
      = ⟨some (generate_question cfg.role cfg.domain cfg.mode 0), 0, []⟩ := rfl
  have hne : acts ≠ [] := by
    intro hnil
    subst hnil
    simp at hlen
    omega
  obtain ⟨ha, hsc, hqiff⟩ := runActions_spec cfg acts (startAction cfg initState)
    (by rw [hs]; rfl) hv (by rw [hs]; simp [hlen])
  refine ⟨hqiff.mpr ⟨hne, by rw [hs]; simp [hlen]⟩, by rw [ha, hs]; simp [hlen], by rw [hsc, hs]; simp⟩

/-- Witness for C2: a one-question run completed by a single skip. -/
theorem run_completes_w :
    (runActions ⟨"Product Manager", "", Mode.systemDesign, 1⟩ [UserAction.skip]
        (startAction ⟨"Product Manager", "", Mode.systemDesign, 1⟩ initState)).question = none :=
  (run_completes ⟨"Product Manager", "", Mode.systemDesign, 1⟩ [UserAction.skip]
    (by decide) rfl (fun a ha => by cases List.mem_singleton.mp ha; rfl)).1

/-- The strengthened reachability invariant: a pending question always
means the asked counter is strictly below the budget, the counter never
exceeds the budget, and results never outnumber asked questions. -/
theorem reachable_strong_invariant (cfg : Settings) (s : SessionState)
    (h1 : 1 ≤ cfg.num_questions) (hr : Reachable cfg s) :
    (∀ q, s.question = some q → s.asked < cfg.num_questions) ∧
    s.asked ≤ cfg.num_questions ∧ s.score.length ≤ s.asked := by
  induction hr with
  | init =>
    exact ⟨fun q h => by simp [initState] at h, Nat.zero_le _, Nat.le_refl 0⟩
  | @start s hr ih =>
    cases hq : s.question with
    | some q =>
      have hkeep : startAction cfg s = s := by
        unfold startAction
        rw [hq]
      rw [hkeep]
      exact ih
    | none =>
      have hfresh : startAction cfg s
          = ⟨some (generate_question cfg.role cfg.domain cfg.mode 0), 0, []⟩ := by
        unfold startAction
        rw [hq]
      rw [hfresh]
      exact ⟨fun q h => by simpa using h1, by simp, by simp⟩
  | @reset s hr ih =>
    exact ⟨fun q h => by simp [initState] at h, Nat.zero_le _, Nat.le_refl 0⟩
  | @submit s model ua hr ih =>
    obtain ⟨ihq, ihn, ihs⟩ := ih
    cases hq : s.question with
    | none =>
      have hkeep : submitAction cfg model ua s = s := by
        unfold submitAction
        rw [hq]
      rw [hkeep]
      exact ⟨ihq, ihn, ihs⟩
    | some q =>
      have hlt : s.asked < cfg.num_questions := ihq q hq
      cases hb : stripIsEmpty ua with
      | true =>
        have hkeep : submitAction cfg model ua s = s := by
          unfold submitAction
          rw [hq]
          simp [hb]
        rw [hkeep]
        exact ⟨ihq, ihn, ihs⟩
      | false =>
        rw [submitAction_eq_of_valid cfg model ua s q hq hb]
        by_cases h2 : s.asked + 1 < cfg.num_questions
        · exact ⟨fun q' h' => h2, by simp; omega, by simp; omega⟩
        · refine ⟨fun q' h' => ?_, by simp; omega, by simp; omega⟩
          simp [if_neg h2] at h'
  | @skip s hr ih =>
    obtain ⟨ihq, ihn, ihs⟩ := ih
    cases hq : s.question with
    | none =>
      have hkeep : skipAction cfg s = s := by
        unfold skipAction
        rw [hq]
      rw [hkeep]
      exact ⟨ihq, ihn, ihs⟩
    | some q =>
      have hlt : s.asked < cfg.num_questions := ihq q hq
      rw [skipAction_eq cfg s q hq]
      by_cases h2 : s.asked + 1 < cfg.num_questions
      · exact ⟨fun q' h' => h2, by simp; omega, by simp; omega⟩
      · refine ⟨fun q' h' => ?_, by simp; omega, by simp; omega⟩
        simp [if_neg h2] at h'

/-- C3: in every session state reachable under fixed settings with a
positive question budget, `asked_count ≤ num_questions` and
`len(results) ≤ asked_count`; and once `asked_count ≥ num_questions` with a
non-empty results list, the current question is cleared. -/
theorem session_invariant (cfg : Settings) (s : SessionState)
    (h1 : 1 ≤ cfg.num_questions) (hr : Reachable cfg s) :
    s.asked ≤ cfg.num_questions ∧ s.score.length ≤ s.asked ∧
    (cfg.num_questions ≤ s.asked ∧ s.score ≠ [] → s.question = none) := by
  obtain ⟨hq, hn, hs⟩ := reachable_strong_invariant cfg s h1 hr
  refine ⟨hn, hs, ?_⟩
  rintro ⟨hge, -⟩
  cases hc : s.question with
  | none => rfl
  | some q =>
    have := hq q hc
    omega

/-- Witness for C3: the fresh session state under a three-question
configuration. -/
theorem session_invariant_w :
    initState.asked ≤ (3 : Nat) ∧ initState.score.length ≤ initState.asked :=
  ⟨(session_invariant ⟨"Designer", "React", Mode.technical, 3⟩ initState (by decide)
      Reachable.init).1,
   (session_invariant ⟨"Designer", "React", Mode.technical, 3⟩ initState (by decide)
      Reachable.init).2.1⟩

end InterviewPrep

namespace InterviewPrep

/-- `String` append acts as append on the character data. -/
theorem str_data_append (a b : String) : (a ++ b).data = a.data ++ b.data := by
  cases a
  cases b
  rfl

/-- A list is a Boolean prefix of itself followed by anything. -/
theorem isPrefixOf_append_self (w x : List Char) : w.isPrefixOf (w ++ x) = true := by
  induction w with
  | nil => cases x <;> rfl
  | cons c cs ih => simp [List.isPrefixOf, ih]

/-- A list starting with `w` is never equal to a list that `w` is not a
prefix of. -/
theorem append_ne_of_no_prefix {w x full : List Char} (h : w.isPrefixOf full = false) :
    w ++ x ≠ full := by
  intro he
  rw [← he, isPrefixOf_append_self] at h
  exact Bool.noConfusion h

/-- A non-empty string of characters occurs as a substring wherever it is
spliced into a surrounding text. -/
theorem hasSub_append_self (n a b : List Char) (hn : n ≠ []) :
    hasSub n (a ++ (n ++ b)) = true := by
  induction a with
  | nil =>
    rw [List.nil_append]
    cases n with
    | nil => exact absurd rfl hn
    | cons c cs =>
      have hstep : hasSub (c :: cs) ((c :: cs) ++ b)
          = ((c :: cs).isPrefixOf ((c :: cs) ++ b) || hasSub (c :: cs) (cs ++ b)) := rfl
      rw [hstep, isPrefixOf_append_self, Bool.true_or]
  | cons c cs ih =>
    have hstep : hasSub n ((c :: cs) ++ (n ++ b))
        = (n.isPrefixOf ((c :: cs) ++ (n ++ b)) || hasSub n (cs ++ (n ++ b))) := rfl
    rw [hstep, ih, Bool.or_true]

/-- A non-empty string has non-empty character data. -/
theorem data_ne_nil {d : String} (hd : d ≠ "") : d.data ≠ [] := by
  intro h
  apply hd
  cases d
  exact congrArg String.mk h

/-- C8 counterexample: for the concrete domain `Python`, the number of
Technical template slots whose text changes with the domain is four, not
three as claimed. -/
theorem technical_three_conditional_false :
    ((List.range 5).filter (fun i =>
        decide ((question_templates "Python" Mode.technical).getD i ""
          ≠ (question_templates "" Mode.technical).getD i ""))).length = 4 ∧
    ¬ ((List.range 5).filter (fun i =>
        decide ((question_templates "Python" Mode.technical).getD i ""
          ≠ (question_templates "" Mode.technical).getD i ""))).length = 3 := by
  constructor
  · decide
  · decide

/-- C8 amended: exactly four of the five Technical templates are
domain-conditional — slots 0 to 3 interpolate a non-empty domain (the
domain text occurs in them and they differ from their empty-domain
fallback phrasing), while slot 4 is the same text regardless of domain. -/
theorem technical_four_conditional (domain : String) (hd : domain ≠ "") :
    (∀ i, i < 4 →
      (question_templates domain Mode.technical).getD i ""
        ≠ (question_templates "" Mode.technical).getD i "" ∧
      hasSub domain.data ((question_templates domain Mode.technical).getD i "").data = true) ∧
    (question_templates domain Mode.technical).getD 4 ""
      = (question_templates "" Mode.technical).getD 4 "" := by
  have hdn : domain.data ≠ [] := data_ne_nil hd
  constructor
  · intro i hi
    interval_cases i <;>
      simp only [question_templates, if_pos hd, List.getD_cons_zero, List.getD_cons_succ] <;>
      constructor
    · intro he
      have hd2 := congrArg String.data he
      simp only [str_data_append, List.append_assoc] at hd2
      exact append_ne_of_no_prefix (by decide) hd2
    · have := hasSub_append_self domain.data "What is your experience with ".data "?".data hdn
      simp only [str_data_append, List.append_assoc]
      exact this
    · intro he
      have hd2 := congrArg String.data he
      simp only [str_data_append, List.append_assoc] at hd2
      exact append_ne_of_no_prefix (by decide) hd2
    · have := hasSub_append_self domain.data "Describe a simple ".data
        (" project you".data ++ (sq.data ++ "ve worked on.".data)) hdn
      simp only [str_data_append, List.append_assoc]
      exact this
    · intro he
      have hd2 := congrArg String.data he
      simp only [str_data_append, List.append_assoc] at hd2
      exact append_ne_of_no_prefix (by decide) hd2
    · have := hasSub_append_self domain.data "How would you explain ".data
        " to a beginner?".data hdn
      simp only [str_data_append, List.append_assoc]
      exact this
    · intro he
      have hd2 := congrArg String.data he
      simp only [str_data_append, List.append_assoc] at hd2
      exact append_ne_of_no_prefix (by decide) hd2
    · have := hasSub_append_self domain.data "What interests you about ".data "?".data hdn
      simp only [str_data_append, List.append_assoc]
      exact this
  · simp only [question_templates, List.getD_cons_succ, List.getD_cons_zero]

/-- Witness for the amended C8 at domain `Python`: the first Technical
template differs from its empty-domain fallback. -/
theorem technical_four_conditional_w :
    (question_templates "Python" Mode.technical).getD 0 ""
      ≠ (question_templates "" Mode.technical).getD 0 "" :=
  ((technical_four_conditional "Python" (by decide)).1 0 (by decide)).1

end InterviewPrep

namespace InterviewPrep

/-- A digit is not whitespace. -/
theorem isSpace_false_of_isDigit {c : Char} (h : isDigit c = true) : isSpace c = false := by
  simp [isDigit] at h
  simp [isSpace]
  omega

/-- A whitespace character is not a digit. -/
theorem isDigit_false_of_isSpace {c : Char} (h : isSpace c = true) : isDigit c = false := by
  simp [isSpace] at h
  simp [isDigit]
  omega

/-- A whitespace character is not a dot. -/
theorem ne_dot_of_isSpace {c : Char} (h : isSpace c = true) : c ≠ '.' := by
  intro he
  subst he
  exact absurd h (by decide)

/-- The possible code points behind a known lowered code point. -/
theorem toNat_of_lowerChar {c : Char} {m : Nat} (h : lowerChar c = m) :
    c.toNat = m ∨ c.toNat + 32 = m := by
  unfold lowerChar at h
  split at h
  · exact Or.inr h
  · exact Or.inl h

/-- A case-insensitive match against a cons pattern exposes the first
character of the text. -/
theorem ciEq_head {p : Char} {ps l : List Char} (h : ciEq (p :: ps) l = true) :
    ∃ c cs, l = c :: cs ∧ lowerChar c = lowerChar p ∧ ciEq ps cs = true := by
  cases l with
  | nil => exact absurd h (by simp [ciEq])
  | cons c cs =>
    simp [ciEq] at h
    exact ⟨c, cs, rfl, h.1, h.2⟩

/-- A character lowering to `o` is not whitespace. -/
theorem isSpace_false_of_lower_o {c : Char} (h : lowerChar c = 111) : isSpace c = false := by
  rcases toNat_of_lowerChar h with hc | hc <;> (simp [isSpace]; omega)

/-- `matchLit` succeeds on a case-insensitive copy of its literal and
returns exactly the rest. -/
theorem matchLit_of_ciEq {pat l : List Char} (h : ciEq pat l = true) (r : List Char) :
    matchLit pat (l ++ r) = some r := by
  induction pat generalizing l with
  | nil =>
    cases l with
    | nil => rfl
    | cons c cs => exact absurd h (by simp [ciEq])
  | cons p ps ih =>
    cases l with
    | nil => exact absurd h (by simp [ciEq])
    | cons c cs =>
      simp [ciEq] at h
      rw [List.cons_append]
      show (if lowerChar c = lowerChar p then matchLit ps (cs ++ r) else none) = some r
      rw [if_pos h.1]
      exact ih h.2

/-- The greedy star consumes exactly the leading run: when `w` is all in
the class and `r` does not start in the class, `(w, r)` is the first
candidate split. -/
theorem starSplits_head (p : Char → Bool) (w r : List Char)
    (hw : w.all p = true) (hr : ∀ c cs, r = c :: cs → p c = false) :
    ∃ t, starSplits p (w ++ r) = (w, r) :: t := by
  induction w with
  | nil =>
    cases r with
    | nil => exact ⟨[], rfl⟩
    | cons c cs =>
      refine ⟨[], ?_⟩
      rw [List.nil_append]
      unfold starSplits
      rw [if_neg]
      simp [hr c cs rfl]
  | cons c cs ih =>
    rw [List.all_cons, Bool.and_eq_true] at hw
    obtain ⟨t, ht⟩ := ih hw.2
    rw [List.cons_append]
    have hstep : starSplits p (c :: (cs ++ r))
        = (starSplits p (cs ++ r)).map (fun q => (c :: q.1, q.2)) ++ [([], c :: (cs ++ r))] := by
      simp only [starSplits]
      rw [if_pos hw.1]
    rw [hstep, ht]
    exact ⟨_, rfl⟩

/-- The greedy plus likewise yields `(w, r)` first for a non-empty leading
run `w`. -/
theorem plusSplits_head (p : Char → Bool) (w r : List Char) (hne : w ≠ [])
    (hw : w.all p = true) (hr : ∀ c cs, r = c :: cs → p c = false) :
    ∃ t, plusSplits p (w ++ r) = (w, r) :: t := by
  cases w with
  | nil => exact absurd rfl hne
  | cons c cs =>
    rw [List.all_cons, Bool.and_eq_true] at hw
    obtain ⟨t, ht⟩ := starSplits_head p cs r hw.2 hr
    rw [List.cons_append]
    have hstep : plusSplits p (c :: (cs ++ r))
        = (starSplits p (cs ++ r)).map (fun q => (c :: q.1, q.2)) := by
      simp only [plusSplits]
      rw [if_pos hw.1]
    rw [hstep, ht]
    exact ⟨_, rfl⟩

/-- The fraction branch produces nothing when the remainder does not start
with a dot. -/
theorem fracSplits_eq_nil (d : List Char) {r : List Char}
    (h : ∀ c cs, r = c :: cs → c ≠ '.') :
    fracSplits d r = [] := by
  cases r with
  | nil => rfl
  | cons c cs =>
    simp only [fracSplits]
    rw [if_neg (h c cs rfl)]

/-- The number splitter yields the whole number-shaped prefix first when
the remainder continues with neither a digit nor a dot. -/
theorem numSplits_head {num r : List Char} (hnum : NumShape num)
    (hr : ∀ c cs, r = c :: cs → isDigit c = false ∧ c ≠ '.') :
    ∃ t, numSplits (num ++ r) = (num, r) :: t := by
  rcases hnum with ⟨hne, hall⟩ | ⟨d, f, heq, hdne, hfne, hd, hf⟩
  · obtain ⟨t, ht⟩ := plusSplits_head isDigit num r hne hall (fun c cs h => (hr c cs h).1)
    unfold numSplits
    rw [ht, List.flatMap_cons]
    simp only [fracSplits_eq_nil _ (fun c cs h => (hr c cs h).2), List.nil_append,
      List.cons_append]
    exact ⟨_, rfl⟩
  · have hnumr : num ++ r = d ++ ('.' :: (f ++ r)) := by
      rw [heq, List.append_assoc, List.cons_append]
    have hdot : ∀ c cs, ('.' :: (f ++ r)) = c :: cs → isDigit c = false := by
      intro c cs h
      injection h with h1 _
      rw [← h1]
      decide
    obtain ⟨t, ht⟩ := plusSplits_head isDigit d ('.' :: (f ++ r)) hdne hd hdot
    obtain ⟨t2, ht2⟩ := plusSplits_head isDigit f r hfne hf (fun c cs h => (hr c cs h).1)
    have hfrac : fracSplits d ('.' :: (f ++ r))
        = (plusSplits isDigit (f ++ r)).map (fun pf => (d ++ '.' :: pf.1, pf.2)) := by
      simp [fracSplits]
    unfold numSplits
    rw [hnumr, ht, List.flatMap_cons]
    simp only [hfrac, ht2, List.map_cons, List.cons_append]
    rw [← heq]
    exact ⟨_, rfl⟩

/-- The slash branch is empty unless the text starts with a slash. -/
theorem slashBranch_eq_nil {s : List Char} (h : ∀ c cs, s = c :: cs → c ≠ '/') :
    slashBranch s = [] := by
  cases s with
  | nil => rfl
  | cons c cs =>
    simp only [slashBranch]
    rw [if_neg (h c cs rfl)]

/-- The separator splitter yields first a remainder that is the trailing
whitespace-stripped rest: for a slash the pending whitespace `w3` is left
for the outer star, for `out ... of` the inner trailing star consumes it. -/
theorem sepSplits_head {sep w3 rest : List Char} (hsep : SepShape sep) (hw3 : allWs w3 = true)
    (hrest : ∀ c cs, rest = c :: cs → isSpace c = false) :
    ∃ w' t, allWs w' = true ∧ sepSplits (sep ++ (w3 ++ rest)) = (w' ++ rest) :: t := by
  rcases hsep with h | ⟨o1, wm, o2, ho1, hwm, ho2, hsepeq⟩
  · subst h
    exact ⟨w3, _, hw3, rfl⟩
  · subst hsepeq
    obtain ⟨a, as, hl, hlo, -⟩ := ciEq_head ho1
    have h111 : lowerChar a = 111 := by rw [hlo]; decide
    have hans : isSpace a = false := isSpace_false_of_lower_o h111
    have hanss : a ≠ '/' := by
      intro he
      subst he
      rcases toNat_of_lowerChar h111 with ha | ha <;> exact absurd ha (by decide)
    have hhead : ∀ c cs, o1 ++ (wm ++ (o2 ++ (w3 ++ rest))) = c :: cs → c = a := by
      intro c cs h
      rw [hl, List.cons_append] at h
      injection h with h1 _
      exact h1.symm
    have hr0 : ∀ c cs, o1 ++ (wm ++ (o2 ++ (w3 ++ rest))) = c :: cs → isSpace c = false := by
      intro c cs h
      rw [hhead c cs h]
      exact hans
    have hslash : slashBranch (o1 ++ (wm ++ (o2 ++ (w3 ++ rest)))) = [] :=
      slashBranch_eq_nil (fun c cs h => by rw [hhead c cs h]; exact hanss)
    obtain ⟨t0, ht0⟩ := starSplits_head isSpace [] (o1 ++ (wm ++ (o2 ++ (w3 ++ rest)))) rfl hr0
    rw [List.nil_append] at ht0
    obtain ⟨b, bs, hlb, hlob, -⟩ := ciEq_head ho2
    have h111b : lowerChar b = 111 := by rw [hlob]; decide
    have hbns : isSpace b = false := isSpace_false_of_lower_o h111b
    have hr1 : ∀ c cs, o2 ++ (w3 ++ rest) = c :: cs → isSpace c = false := by
      intro c cs h
      rw [hlb, List.cons_append] at h
      injection h with h1 _
      rw [← h1]
      exact hbns
    obtain ⟨t1, ht1⟩ := starSplits_head isSpace wm (o2 ++ (w3 ++ rest)) hwm hr1
    obtain ⟨t2, ht2⟩ := starSplits_head isSpace w3 rest hw3 hrest
    refine ⟨[], ?_⟩
    simp only [List.append_assoc]
    unfold sepSplits
    rw [hslash, List.nil_append, ht0, List.flatMap_cons]
    simp only [matchLit_of_ciEq ho1, matchLit_of_ciEq ho2, ht1, ht2, List.flatMap_cons,
      List.map_cons, List.cons_append, List.nil_append]
    exact ⟨_, rfl, rfl⟩

end InterviewPrep

namespace InterviewPrep

/-- A number-shaped token starts with a digit. -/
theorem numShape_head {num : List Char} (h : NumShape num) :
    ∃ c cs, num = c :: cs ∧ isDigit c = true := by
  rcases h with ⟨hne, hall⟩ | ⟨d, f, heq, hdne, hfne, hd, hf⟩
  · cases num with
    | nil => exact absurd rfl hne
    | cons c cs =>
      rw [List.all_cons, Bool.and_eq_true] at hall
      exact ⟨c, cs, rfl, hall.1⟩
  · cases d with
    | nil => exact absurd rfl hdne
    | cons c cs =>
      rw [List.all_cons, Bool.and_eq_true] at hd
      exact ⟨c, cs ++ '.' :: f, by rw [heq, List.cons_append], hd.1⟩

/-- A separator starts with a character that is no whitespace, no digit and
no dot. -/
theorem sepShape_head {sep : List Char} (h : SepShape sep) :
    ∃ c cs, sep = c :: cs ∧ isSpace c = false ∧ isDigit c = false ∧ c ≠ '.' := by
  rcases h with h | ⟨o1, wm, o2, ho1, hwm, ho2, hsepeq⟩
  · exact ⟨'/', [], h, by decide, by decide, by decide⟩
  · obtain ⟨a, as, hl, hlo, -⟩ := ciEq_head ho1
    have h111 : lowerChar a = 111 := by rw [hlo]; decide
    have h1 : isSpace a = false := isSpace_false_of_lower_o h111
    have h2 : isDigit a = false := by
      rcases toNat_of_lowerChar h111 with ha | ha <;> (simp [isDigit]; omega)
    have h3 : a ≠ '.' := by
      intro he
      subst he
      rcases toNat_of_lowerChar h111 with ha | ha <;> exact absurd ha (by decide)
    refine ⟨a, as ++ wm ++ o2, ?_, h1, h2, h3⟩
    rw [hsepeq, hl]
    simp only [List.cons_append]

/-- The first candidate wins when the continuation succeeds on it. -/
theorem firstSome?_head {α β : Type} (f : α → Option β) (a : α) (l : List α) (b : β)
    (h : f a = some b) : firstSome? f (a :: l) = some b := by
  unfold firstSome?
  rw [h]

/-- A full anchored match of the score pattern: the backtracking matcher
finds the structured decomposition first and returns its number. -/
theorem matchAt_pattern (sco w1 num w2 sep w3 suf : List Char)
    (hsco : ciEq scorePat sco = true) (hw1 : allWs w1 = true) (hnum : NumShape num)
    (hw2 : allWs w2 = true) (hsep : SepShape sep) (hw3 : allWs w3 = true) :
    matchAt (sco ++ (w1 ++ (num ++ (w2 ++ (sep ++ (w3 ++ '1' :: '0' :: suf)))))) = some num := by
  obtain ⟨cN, csN, hnumc, hdigN⟩ := numShape_head hnum
  obtain ⟨cS, csS, hsepc, hSns, hSnd, hSnp⟩ := sepShape_head hsep
  have hr10 : ∀ c cs, ('1' :: '0' :: suf) = c :: cs → isSpace c = false := by
    intro c cs h
    injection h with h1 _
    rw [← h1]
    decide
  have hr1 : ∀ c cs, (num ++ (w2 ++ (sep ++ (w3 ++ '1' :: '0' :: suf)))) = c :: cs →
      isSpace c = false := by
    intro c cs h
    rw [hnumc, List.cons_append] at h
    injection h with h1 _
    rw [← h1]
    exact isSpace_false_of_isDigit hdigN
  have hr2 : ∀ c cs, (w2 ++ (sep ++ (w3 ++ '1' :: '0' :: suf))) = c :: cs →
      isDigit c = false ∧ c ≠ '.' := by
    cases hw2c : w2 with
    | nil =>
      intro c cs h
      rw [List.nil_append, hsepc, List.cons_append] at h
      injection h with h1 _
      rw [← h1]
      exact ⟨hSnd, hSnp⟩
    | cons a as =>
      intro c cs h
      rw [List.cons_append] at h
      injection h with h1 _
      have ha : isSpace a = true := by
        have hx := hw2
        rw [hw2c] at hx
        simp [allWs, List.all_cons] at hx
        exact hx.1
      rw [← h1]
      exact ⟨isDigit_false_of_isSpace ha, ne_dot_of_isSpace ha⟩
  have hr3 : ∀ c cs, (sep ++ (w3 ++ '1' :: '0' :: suf)) = c :: cs → isSpace c = false := by
    intro c cs h
    rw [hsepc, List.cons_append] at h
    injection h with h1 _
    rw [← h1]
    exact hSns
  obtain ⟨t1, ht1⟩ := starSplits_head isSpace w1
    (num ++ (w2 ++ (sep ++ (w3 ++ '1' :: '0' :: suf)))) hw1 hr1
  obtain ⟨t2, ht2⟩ := numSplits_head hnum hr2
  obtain ⟨t3, ht3⟩ := starSplits_head isSpace w2 (sep ++ (w3 ++ '1' :: '0' :: suf)) hw2 hr3
  obtain ⟨w', t4, hw', ht4⟩ := sepSplits_head hsep hw3 hr10
  obtain ⟨t5, ht5⟩ := starSplits_head isSpace w' ('1' :: '0' :: suf) hw' hr10
  unfold matchAt
  rw [matchLit_of_ciEq hsco]
  show afterScore (w1 ++ (num ++ (w2 ++ (sep ++ (w3 ++ '1' :: '0' :: suf))))) = some num
  unfold afterScore
  rw [ht1]
  apply firstSome?_head
  show firstSome? (fun p2 => afterNum p2.1 p2.2)
    (numSplits (num ++ (w2 ++ (sep ++ (w3 ++ '1' :: '0' :: suf))))) = some num
  rw [ht2]
  apply firstSome?_head
  show afterNum num (w2 ++ (sep ++ (w3 ++ '1' :: '0' :: suf))) = some num
  unfold afterNum
  rw [ht3]
  apply firstSome?_head
  show firstSome? (fun r4 => firstSome? (fun p5 => matchTen num p5.2) (starSplits isSpace r4))
    (sepSplits (sep ++ (w3 ++ '1' :: '0' :: suf))) = some num
  rw [ht4]
  apply firstSome?_head
  show firstSome? (fun p5 => matchTen num p5.2) (starSplits isSpace (w' ++ '1' :: '0' :: suf))
    = some num
  rw [ht5]
  apply firstSome?_head
  show matchTen num ('1' :: '0' :: suf) = some num
  simp [matchTen]

/-- No anchored match can start at a character that does not lower to `s`. -/
theorem matchAt_cons_none {c : Char} (X : List Char) (hc : lowerChar c ≠ 115) :
    matchAt (c :: X) = none := by
  have h115 : lowerChar 'S' = 115 := by decide
  have hlit : matchLit scorePat (c :: X) = none := by
    simp only [scorePat, matchLit]
    rw [h115, if_neg hc]
  unfold matchAt
  rw [hlit]

/-- `re.search` finds the score pattern after any prefix free of `s`-like
characters and returns the captured number. -/
theorem search_pattern (pre sco w1 num w2 sep w3 suf : List Char)
    (hpre : ∀ c ∈ pre, lowerChar c ≠ 115)
    (hsco : ciEq scorePat sco = true) (hw1 : allWs w1 = true) (hnum : NumShape num)
    (hw2 : allWs w2 = true) (hsep : SepShape sep) (hw3 : allWs w3 = true) :
    search (pre ++ (sco ++ (w1 ++ (num ++ (w2 ++ (sep ++ (w3 ++ '1' :: '0' :: suf)))))))
      = some num := by
  induction pre with
  | nil =>
    rw [List.nil_append]
    have hm := matchAt_pattern sco w1 num w2 sep w3 suf hsco hw1 hnum hw2 hsep hw3
    obtain ⟨c, cs, hsc, -, -⟩ := ciEq_head hsco
    rw [hsc] at hm ⊢
    rw [List.cons_append] at hm ⊢
    unfold search
    rw [hm]
  | cons c pre' ih =>
    rw [List.cons_append]
    unfold search
    rw [matchAt_cons_none _ (hpre c (List.mem_cons_self c pre'))]
    exact ih (fun d hd => hpre d (List.mem_cons_of_mem c hd))

end InterviewPrep

namespace InterviewPrep

/-- Inversion of the literal matcher: a success decomposes the text. -/
theorem matchLit_sound {pat s r : List Char} (h : matchLit pat s = some r) :
    ∃ l, s = l ++ r ∧ ciEq pat l = true := by
  induction pat generalizing s with
  | nil =>
    simp only [matchLit] at h
    injection h with h1
    refine ⟨[], ?_, rfl⟩
    rw [h1, List.nil_append]
  | cons p ps ih =>
    cases s with
    | nil => exact absurd h (by simp [matchLit])
    | cons c cs =>
      simp only [matchLit] at h
      by_cases hc : lowerChar c = lowerChar p
      · rw [if_pos hc] at h
        obtain ⟨l, hcs, hci⟩ := ih h
        refine ⟨c :: l, ?_, ?_⟩
        · rw [List.cons_append, ← hcs]
        · simp [ciEq, hc, hci]
      · rw [if_neg hc] at h
        exact absurd h (by simp)

/-- Inversion of the star splitter: every candidate is a split into a
classified prefix and the remainder. -/
theorem starSplits_sound (p : Char → Bool) (s w r : List Char)
    (h : (w, r) ∈ starSplits p s) : s = w ++ r ∧ w.all p = true := by
  induction s generalizing w r with
  | nil =>
    simp [starSplits] at h
    obtain ⟨h1, h2⟩ := h
    subst h1
    subst h2
    exact ⟨rfl, rfl⟩
  | cons c cs ih =>
    simp only [starSplits] at h
    by_cases hc : p c = true
    · rw [if_pos hc] at h
      rcases List.mem_append.mp h with h | h
      · obtain ⟨⟨w', r'⟩, hmem, heq⟩ := List.mem_map.mp h
        injection heq with hw hr
        subst hw
        subst hr
        obtain ⟨hs, hall⟩ := ih w' r' hmem
        refine ⟨by rw [hs, List.cons_append], ?_⟩
        rw [List.all_cons, Bool.and_eq_true]
        exact ⟨hc, hall⟩
      · simp at h
        obtain ⟨h1, h2⟩ := h
        subst h1
        subst h2
        exact ⟨rfl, rfl⟩
    · rw [if_neg hc] at h
      simp at h
      obtain ⟨h1, h2⟩ := h
      subst h1
      subst h2
      exact ⟨rfl, rfl⟩

/-- Inversion of the plus splitter: additionally the prefix is non-empty. -/
theorem plusSplits_sound (p : Char → Bool) (s w r : List Char)
    (h : (w, r) ∈ plusSplits p s) : s = w ++ r ∧ w.all p = true ∧ w ≠ [] := by
  cases s with
  | nil => simp [plusSplits] at h
  | cons c cs =>
    simp only [plusSplits] at h
    by_cases hc : p c = true
    · rw [if_pos hc] at h
      obtain ⟨⟨w', r'⟩, hmem, heq⟩ := List.mem_map.mp h
      injection heq with hw hr
      subst hw
      subst hr
      obtain ⟨hs, hall⟩ := starSplits_sound p cs w' r' hmem
      refine ⟨by rw [hs, List.cons_append], ?_, by simp⟩
      rw [List.all_cons, Bool.and_eq_true]
      exact ⟨hc, hall⟩
    · rw [if_neg hc] at h
      simp at h

/-- Inversion of the number splitter: every candidate capture is
number-shaped and splits the input. -/
theorem numSplits_sound (s num r : List Char) (h : (num, r) ∈ numSplits s) :
    s = num ++ r ∧ NumShape num := by
  unfold numSplits at h
  obtain ⟨⟨d, rd⟩, hmem, hin⟩ := List.mem_flatMap.mp h
  obtain ⟨hs, hall, hne⟩ := plusSplits_sound isDigit s d rd hmem
  rcases List.mem_append.mp hin with hfrac | hbase
  · cases hrd : rd with
    | nil =>
      rw [hrd] at hfrac
      simp [fracSplits] at hfrac
    | cons c r2 =>
      rw [hrd] at hfrac
      simp only [fracSplits] at hfrac
      by_cases hc : c = '.'
      · rw [if_pos hc] at hfrac
        obtain ⟨⟨f, rf⟩, hfm, heq⟩ := List.mem_map.mp hfrac
        injection heq with h1 h2
        subst h1
        subst h2
        subst hc
        obtain ⟨h2s, hallf, hnef⟩ := plusSplits_sound isDigit r2 f rf hfm
        constructor
        · rw [hs, hrd, h2s]
          simp [List.append_assoc, List.cons_append]
        · exact Or.inr ⟨d, f, rfl, hne, hnef, hall, hallf⟩
      · rw [if_neg hc] at hfrac
        simp at hfrac
  · simp at hbase
    obtain ⟨h1, h2⟩ := hbase
    subst h1
    subst h2
    exact ⟨hs, Or.inl ⟨hne, hall⟩⟩

/-- Inversion of the slash branch. -/
theorem slashBranch_sound {s r : List Char} (h : r ∈ slashBranch s) : s = '/' :: r := by
  cases s with
  | nil => simp [slashBranch] at h
  | cons c cs =>
    simp only [slashBranch] at h
    by_cases hc : c = '/'
    · rw [if_pos hc] at h
      simp at h
      subst h
      rw [hc]
    · rw [if_neg hc] at h
      simp at h

/-- Inversion of the separator splitter: each candidate remainder comes
after leading whitespace, a well-shaped separator, and trailing
whitespace. -/
theorem sepSplits_sound {s r : List Char} (h : r ∈ sepSplits s) :
    ∃ wa sep wb, allWs wa = true ∧ SepShape sep ∧ allWs wb = true ∧
      s = wa ++ (sep ++ (wb ++ r)) := by
  unfold sepSplits at h
  rcases List.mem_append.mp h with hs | ho
  · have hsb := slashBranch_sound hs
    exact ⟨[], ['/'], [], rfl, Or.inl rfl, rfl, by rw [hsb]; rfl⟩
  · obtain ⟨⟨wa, r1⟩, hmem1, hin1⟩ := List.mem_flatMap.mp ho
    obtain ⟨hs1, hallwa⟩ := starSplits_sound isSpace s wa r1 hmem1
    cases hlit : matchLit outPat r1 with
    | none =>
      rw [hlit] at hin1
      simp at hin1
    | some r2 =>
      rw [hlit] at hin1
      obtain ⟨o1, hr1eq, ho1⟩ := matchLit_sound hlit
      obtain ⟨⟨wm, r3⟩, hmem2, hin2⟩ := List.mem_flatMap.mp hin1
      obtain ⟨hs2, hallwm⟩ := starSplits_sound isSpace r2 wm r3 hmem2
      cases hlit2 : matchLit ofPat r3 with
      | none =>
        rw [hlit2] at hin2
        simp at hin2
      | some r4 =>
        rw [hlit2] at hin2
        obtain ⟨o2, hr3eq, ho2⟩ := matchLit_sound hlit2
        obtain ⟨⟨wt, r5⟩, hmem3, heq⟩ := List.mem_map.mp hin2
        obtain ⟨hs3, hallwt⟩ := starSplits_sound isSpace r4 wt r5 hmem3
        have hr5 : r5 = r := heq
        subst hr5
        refine ⟨wa, o1 ++ wm ++ o2, wt, hallwa,
          Or.inr ⟨o1, wm, o2, ho1, hallwm, ho2, rfl⟩, hallwt, ?_⟩
        rw [hs1, hr1eq, hs2, hr3eq, hs3]
        simp [List.append_assoc]

/-- Inversion of the final `10` literal. -/
theorem matchTen_sound {num rest v : List Char} (h : matchTen num rest = some v) :
    v = num ∧ ∃ suf, rest = '1' :: '0' :: suf := by
  cases rest with
  | nil => exact absurd h (by simp [matchTen])
  | cons c1 rest1 =>
    cases rest1 with
    | nil => exact absurd h (by simp [matchTen])
    | cons c2 rs =>
      simp only [matchTen] at h
      by_cases hc : c1 = '1' ∧ c2 = '0'
      · rw [if_pos hc] at h
        injection h with h1
        exact ⟨h1.symm, rs, by rw [hc.1, hc.2]⟩
      · rw [if_neg hc] at h
        exact absurd h (by simp)

/-- A successful scan has a successful candidate. -/
theorem firstSome?_sound {α β : Type} (f : α → Option β) (l : List α) (b : β)
    (h : firstSome? f l = some b) : ∃ a ∈ l, f a = some b := by
  induction l with
  | nil => exact absurd h (by simp [firstSome?])
  | cons a l ih =>
    cases hfa : f a with
    | some v =>
      have hstep : firstSome? f (a :: l) = some v := by
        simp only [firstSome?]
        rw [hfa]
      rw [hstep] at h
      injection h with h1
      exact ⟨a, List.mem_cons_self a l, by rw [hfa, h1]⟩
    | none =>
      have hstep : firstSome? f (a :: l) = firstSome? f l := by
        simp only [firstSome?]
        rw [hfa]
      rw [hstep] at h
      obtain ⟨x, hx, hfx⟩ := ih h
      exact ⟨x, List.mem_cons_of_mem a hx, hfx⟩

/-- Inversion of an anchored match: a success at a position exposes a full
structured occurrence of the score pattern there, capturing its number. -/
theorem matchAt_sound {s num : List Char} (h : matchAt s = some num) : ScoreTail s num := by
  unfold matchAt at h
  cases hlit : matchLit scorePat s with
  | none =>
    rw [hlit] at h
    exact absurd h (by simp)
  | some r1 =>
    rw [hlit] at h
    obtain ⟨sco, hseq, hsco⟩ := matchLit_sound hlit
    unfold afterScore at h
    obtain ⟨⟨w1, rest1⟩, hm1, h1⟩ := firstSome?_sound _ _ _ h
    obtain ⟨hr1eq, hallw1⟩ := starSplits_sound isSpace r1 w1 rest1 hm1
    have h1a : firstSome? (fun p2 => afterNum p2.1 p2.2) (numSplits rest1) = some num := h1
    obtain ⟨⟨num', rest2⟩, hm2, h2⟩ := firstSome?_sound _ _ _ h1a
    have hm2a : (num', rest2) ∈ numSplits rest1 := hm2
    obtain ⟨hr2eq, hnum'⟩ := numSplits_sound rest1 num' rest2 hm2a
    have h2a : afterNum num' rest2 = some num := h2
    unfold afterNum at h2a
    obtain ⟨⟨w2, rest3⟩, hm3, h3⟩ := firstSome?_sound _ _ _ h2a
    have hm3a : (w2, rest3) ∈ starSplits isSpace rest2 := hm3
    obtain ⟨hr3eq, hallw2⟩ := starSplits_sound isSpace rest2 w2 rest3 hm3a
    have h3a : firstSome? (fun r4 => firstSome? (fun p5 => matchTen num' p5.2)
        (starSplits isSpace r4)) (sepSplits rest3) = some num := h3
    obtain ⟨r4, hm4, h4⟩ := firstSome?_sound _ _ _ h3a
    have hm4a : r4 ∈ sepSplits rest3 := hm4
    obtain ⟨wa, sep, wb, hallwa, hsep, hallwb, hr4eq⟩ := sepSplits_sound hm4a
    have h4a : firstSome? (fun p5 => matchTen num' p5.2) (starSplits isSpace r4) = some num := h4
    obtain ⟨⟨wt, r5⟩, hm5, h5⟩ := firstSome?_sound _ _ _ h4a
    have hm5a : (wt, r5) ∈ starSplits isSpace r4 := hm5
    obtain ⟨hr5eq, hallwt⟩ := starSplits_sound isSpace r4 wt r5 hm5a
    have h5a : matchTen num' r5 = some num := h5
    obtain ⟨hvnum, suf, hr5ten⟩ := matchTen_sound h5a
    subst hvnum
    refine ⟨sco, w1, w2 ++ wa, sep, wb ++ wt, suf, hsco, hallw1, hnum', ?_, hsep, ?_, ?_⟩
    · simp [allWs, List.all_append] at hallw2 hallwa ⊢
      exact ⟨hallw2, hallwa⟩
    · simp [allWs, List.all_append] at hallwb hallwt ⊢
      exact ⟨hallwb, hallwt⟩
    · rw [hseq, hr1eq, hr2eq, hr3eq, hr4eq, hr5eq, hr5ten]
      simp [List.append_assoc]

/-- A successful search decomposes the text at the match position. -/
theorem search_sound {s num : List Char} (h : search s = some num) :
    ∃ pre rest, s = pre ++ rest ∧ matchAt rest = some num := by
  induction s with
  | nil => exact absurd h (by simp [search])
  | cons c cs ih =>
    cases hm : matchAt (c :: cs) with
    | some v =>
      have hstep : search (c :: cs) = some v := by
        simp only [search]
        rw [hm]
      rw [hstep] at h
      injection h with h1
      exact ⟨[], c :: cs, rfl, by rw [hm, h1]⟩
    | none =>
      have hstep : search (c :: cs) = search cs := by
        simp only [search]
        rw [hm]
      rw [hstep] at h
      obtain ⟨pre, rest, heq, hma⟩ := ih h
      exact ⟨c :: pre, rest, by rw [heq, List.cons_append], hma⟩

/-- C4: for every feedback text that is a prefix without `s`-like
characters followed by an occurrence of the score pattern — a case variant
of `Score:`, optional whitespace, a number `num`, optional whitespace, `/`
or a case variant of `out ... of`, optional whitespace, then `10` —
`extract_score` returns exactly that number (as an exact rational); and for
every feedback string containing no occurrence of the pattern anywhere,
`extract_score` returns the default 7. -/
theorem extract_score_correct :
    (∀ pre sco w1 num w2 sep w3 suf : List Char,
      (∀ c ∈ pre, lowerChar c ≠ 115) → ciEq scorePat sco = true → allWs w1 = true →
      NumShape num → allWs w2 = true → SepShape sep → allWs w3 = true →
      extract_score ⟨pre ++ (sco ++ (w1 ++ (num ++ (w2 ++ (sep ++ (w3 ++ '1' :: '0' :: suf))))))⟩
        = parseNum num) ∧
    (∀ s : String, ¬ HasScorePattern s.data → extract_score s = 7) := by
  constructor
  · intro pre sco w1 num w2 sep w3 suf hpre hsco hw1 hnum hw2 hsep hw3
    unfold extract_score
    have hdata : (String.mk (pre ++ (sco ++ (w1 ++ (num ++ (w2 ++ (sep ++ (w3 ++ '1' :: '0' :: suf)))))))).data
        = pre ++ (sco ++ (w1 ++ (num ++ (w2 ++ (sep ++ (w3 ++ '1' :: '0' :: suf)))))) := rfl
    rw [hdata, search_pattern pre sco w1 num w2 sep w3 suf hpre hsco hw1 hnum hw2 hsep hw3]
  · intro s h
    cases hse : search s.data with
    | none =>
      unfold extract_score
      rw [hse]
    | some num =>
      exfalso
      obtain ⟨pre, rest, heq, hma⟩ := search_sound hse
      exact h ⟨pre, rest, num, heq, matchAt_sound hma⟩

/-- Witness for C4: the concrete feedback `Score: 9/10` yields 9. -/
theorem extract_score_correct_w :
    extract_score ⟨[] ++ ("Score:".data ++ ([' '] ++ (['9'] ++ ([] ++ (['/'] ++ ([] ++ '1' :: '0' :: ([] : List Char)))))))⟩
      = parseNum ['9'] :=
  extract_score_correct.1 [] "Score:".data [' '] ['9'] [] ['/'] [] []
    (fun c hc => absurd hc (List.not_mem_nil c)) (by decide) (by decide)
    (Or.inl ⟨by decide, by decide⟩) (by decide) (Or.inl rfl) (by decide)

end InterviewPrep
